import Mathlib

/-!
Verification of the FdbInfo record type of sonic-sairedis (vslib), the
forwarding-database entry record exercised by unittest/vslib/TestY2K38FdbInfo.cpp.
The record holds one learned MAC-to-port binding (switch id, composite key of a
6-byte MAC address and a bridge/VLAN id, bridge-port id) together with an
unsigned 64-bit last-seen timestamp, and provides a lossless textual
serialization.  Machine integers are modelled as Nat with explicit range
predicates (`< 2^64` for the 64-bit handles and timestamp, `< 256` for MAC
bytes).
-/

namespace saivs

/-- Modelled from the spec: the 6-byte MAC address component of the composite
forwarding-entry key (the implementation file FdbInfo.h is not in the visible
sources; only the spec and the test exercise it).  Each field is one byte,
valid when `< 256`. -/
structure MacAddress where
  b0 : Nat
  b1 : Nat
  b2 : Nat
  b3 : Nat
  b4 : Nat
  b5 : Nat
deriving DecidableEq

/-- Modelled from the spec: the composite forwarding-entry key
(`sai_fdb_entry_t`): the owning switch identifier, the MAC address and the
bridge/VLAN domain identifier carried alongside it. -/
structure FdbEntry where
  switch_id : Nat
  mac_address : MacAddress
  bv_id : Nat
deriving DecidableEq

/-- Modelled from the spec: the FdbInfo record: one forwarding-database entry
(composite key), the bridge-port the MAC was learned on, and the unsigned
64-bit last-seen timestamp. -/
structure FdbInfo where
  m_fdbEntry : FdbEntry
  m_bridgePortId : Nat
  m_timestamp : Nat
deriving DecidableEq

/-- A MAC address is valid when every byte fits in 8 bits. -/
def ValidMac (m : MacAddress) : Prop :=
  m.b0 < 256 ∧ m.b1 < 256 ∧ m.b2 < 256 ∧ m.b3 < 256 ∧ m.b4 < 256 ∧ m.b5 < 256

instance (m : MacAddress) : Decidable (ValidMac m) := by
  unfold ValidMac; infer_instance

/-- A forwarding-entry key is valid when its identifiers fit in 64 bits and
its MAC address is valid. -/
def ValidEntry (e : FdbEntry) : Prop :=
  e.switch_id < 2 ^ 64 ∧ ValidMac e.mac_address ∧ e.bv_id < 2 ^ 64

instance (e : FdbEntry) : Decidable (ValidEntry e) := by
  unfold ValidEntry; infer_instance

/-- An FdbInfo record is valid when every field is within the declared
machine-integer range. -/
def ValidFdbInfo (r : FdbInfo) : Prop :=
  ValidEntry r.m_fdbEntry ∧ r.m_bridgePortId < 2 ^ 64 ∧ r.m_timestamp < 2 ^ 64

instance (r : FdbInfo) : Decidable (ValidFdbInfo r) := by
  unfold ValidFdbInfo; infer_instance

/-- Modelled from the spec: default-constructed FdbInfo; all fields
zero-initialised, so the timestamp reads as a fixed deterministic initial
value before the first `setTimestamp`. -/
def FdbInfo.mkDefault : FdbInfo :=
  { m_fdbEntry := { switch_id := 0
                    mac_address := { b0 := 0, b1 := 0, b2 := 0, b3 := 0, b4 := 0, b5 := 0 }
                    bv_id := 0 }
    m_bridgePortId := 0
    m_timestamp := 0 }

/-- Modelled from the spec: `setTimestamp(value: uint64)`: unconditional
overwrite of the timestamp field, no validation or truncation. -/
def FdbInfo.setTimestamp (r : FdbInfo) (t : Nat) : FdbInfo :=
  { r with m_timestamp := t }

/-- Modelled from the spec: `getTimestamp() -> uint64`: returns the stored
timestamp unchanged. -/
def FdbInfo.getTimestamp (r : FdbInfo) : Nat :=
  r.m_timestamp

/-- Modelled from the spec: `setFdbEntry(entryKey)`: overwrites the composite
key (MAC + bridge/VLAN id) and the owning switch identifier carried alongside
it. -/
def FdbInfo.setFdbEntry (r : FdbInfo) (e : FdbEntry) : FdbInfo :=
  { r with m_fdbEntry := e }

/-- Modelled from the spec: `setBridgePortId(portId)`: overwrites the
learned-on-port identifier. -/
def FdbInfo.setBridgePortId (r : FdbInfo) (p : Nat) : FdbInfo :=
  { r with m_bridgePortId := p }

/-- Records are ordered by timestamp using ordinary unsigned comparison. -/
def FdbInfo.ltByTimestamp (a b : FdbInfo) : Prop :=
  a.getTimestamp < b.getTimestamp

instance (a b : FdbInfo) : Decidable (FdbInfo.ltByTimestamp a b) := by
  unfold FdbInfo.ltByTimestamp; infer_instance

/-! ### Textual encoding primitives -/

/-- A decimal digit character (value `d < 10` expected). -/
def digitChar (d : Nat) : Char :=
  Char.ofNat (48 + d)

/-- Numeric value of a decimal digit character. -/
def charVal (c : Char) : Nat :=
  c.toNat - 48

/-- Recognises the characters '0'..'9'. -/
def isDigitC (c : Char) : Bool :=
  decide (48 ≤ c.toNat) && decide (c.toNat ≤ 57)

/-- A lowercase hexadecimal digit character (value `d < 16` expected). -/
def hexChar (d : Nat) : Char :=
  if d < 10 then Char.ofNat (48 + d) else Char.ofNat (87 + d)

/-- Numeric value of a hexadecimal digit character. -/
def hexVal (c : Char) : Nat :=
  if isDigitC c then c.toNat - 48 else c.toNat - 87

/-- Recognises the characters '0'..'9' and 'a'..'f'. -/
def isHexC (c : Char) : Bool :=
  isDigitC c || (decide (97 ≤ c.toNat) && decide (c.toNat ≤ 102))

/-- Big-endian decimal digits of `n`, most significant first; `fuel` bounds
the number of digits produced (`n < 10 ^ fuel` is required for correctness). -/
def encNatAux : Nat → Nat → List Char
  | 0, _ => []
  | fuel + 1, n =>
    if n = 0 then [] else encNatAux fuel (n / 10) ++ [digitChar (n % 10)]

/-- Unsigned decimal text of `n` (canonical: no leading zeros, "0" for zero).
20 digits suffice for the whole unsigned 64-bit range. -/
def encNat (n : Nat) : List Char :=
  if n = 0 then [digitChar 0] else encNatAux 20 n

/-- Numeric value of a big-endian decimal digit string. -/
def decVal (cs : List Char) : Nat :=
  cs.foldl (fun a c => a * 10 + charVal c) 0

/-- Parse canonical unsigned decimal text: nonempty, all digits, no leading
zero (except the single digit "0" itself). -/
def parseNat (cs : List Char) : Option Nat :=
  if cs ≠ [] ∧ (∀ c ∈ cs, isDigitC c = true) ∧ (cs.head? = some (digitChar 0) → cs = [digitChar 0])
  then some (decVal cs) else none

/-- Parse canonical unsigned decimal text of a 64-bit value: rejects
out-of-range values (`≥ 2^64`). -/
def parseNat64 (cs : List Char) : Option Nat :=
  match parseNat cs with
  | some n => if n < 2 ^ 64 then some n else none
  | none => none

/-- Two-character lowercase hexadecimal text of one byte. -/
def hexPair (b : Nat) : List Char :=
  [hexChar (b / 16), hexChar (b % 16)]

/-- Parse exactly two hexadecimal digit characters into a byte. -/
def parseHexByte (cs : List Char) : Option Nat :=
  match cs with
  | [c1, c2] =>
    if isHexC c1 && isHexC c2 then some (hexVal c1 * 16 + hexVal c2) else none
  | _ => none

/-- Split a character list at every occurrence of `sep`.  Always returns at
least one (possibly empty) piece; n separators yield n+1 pieces. -/
def sepSplit (sep : Char) : List Char → List (List Char)
  | [] => [[]]
  | c :: cs =>
    if c = sep then [] :: sepSplit sep cs
    else
      match sepSplit sep cs with
      | [] => [[c]]
      | t :: ts => (c :: t) :: ts

/-- Join pieces with `sep` between consecutive pieces (inverse of `sepSplit`). -/
def joinSep (sep : Char) : List (List Char) → List Char
  | [] => []
  | [x] => x
  | x :: y :: ys => x ++ sep :: joinSep sep (y :: ys)

/-- The colon character separating MAC bytes. -/
def macSep : Char := Char.ofNat 58

/-- The comma character separating record fields. -/
def fieldSep : Char := Char.ofNat 44

/-- Colon-separated lowercase hexadecimal text of a MAC address, two digits
per byte. -/
def macChars (m : MacAddress) : List Char :=
  hexPair m.b0 ++ macSep :: (hexPair m.b1 ++ macSep :: (hexPair m.b2 ++
    macSep :: (hexPair m.b3 ++ macSep :: (hexPair m.b4 ++ macSep :: hexPair m.b5))))

/-- Parse a MAC address: exactly six colon-separated groups of exactly two
hexadecimal digits. -/
def parseMac (cs : List Char) : Option MacAddress :=
  match sepSplit macSep cs with
  | [p0, p1, p2, p3, p4, p5] =>
    match parseHexByte p0, parseHexByte p1, parseHexByte p2,
          parseHexByte p3, parseHexByte p4, parseHexByte p5 with
    | some a0, some a1, some a2, some a3, some a4, some a5 =>
      some { b0 := a0, b1 := a1, b2 := a2, b3 := a3, b4 := a4, b5 := a5 }
    | _, _, _, _, _, _ => none
  | _ => none

/-- Modelled from the spec: the deterministic comma-delimited textual
encoding of a record: switch identifier, MAC address, bridge/VLAN id,
bridge-port id, and the timestamp as an unsigned 64-bit decimal integer. -/
def serializeChars (r : FdbInfo) : List Char :=
  encNat r.m_fdbEntry.switch_id ++ fieldSep :: (macChars r.m_fdbEntry.mac_address ++
    fieldSep :: (encNat r.m_fdbEntry.bv_id ++ fieldSep :: (encNat r.m_bridgePortId ++
      fieldSep :: encNat r.m_timestamp)))

/-- The single error kind of this component: structurally invalid input to
`deserialize`. -/
inductive MalformedInput where
  | malformedInput : MalformedInput
deriving DecidableEq

instance {ε α : Type} [DecidableEq ε] [DecidableEq α] : DecidableEq (Except ε α) := fun x y =>
  match x, y with
  | Except.ok a, Except.ok b =>
    if h : a = b then Decidable.isTrue (by rw [h])
    else Decidable.isFalse (by intro hc; cases hc; exact h rfl)
  | Except.error a, Except.error b =>
    if h : a = b then Decidable.isTrue (by rw [h])
    else Decidable.isFalse (by intro hc; cases hc; exact h rfl)
  | Except.ok _, Except.error _ => Decidable.isFalse (by intro hc; cases hc)
  | Except.error _, Except.ok _ => Decidable.isFalse (by intro hc; cases hc)

/-- Modelled from the spec: `deserialize` on character level: split into
exactly five comma-separated fields, parse each (64-bit decimal identifiers,
colon-separated MAC); any structural mismatch yields `MalformedInput` and no
record. -/
def deserializeChars (cs : List Char) : Except MalformedInput FdbInfo :=
  match sepSplit fieldSep cs with
  | [f0, f1, f2, f3, f4] =>
    match parseNat64 f0, parseMac f1, parseNat64 f2, parseNat64 f3, parseNat64 f4 with
    | some sw, some mac, some bv, some pt, some ts =>
      Except.ok { m_fdbEntry := { switch_id := sw, mac_address := mac, bv_id := bv }
                  m_bridgePortId := pt
                  m_timestamp := ts }
    | _, _, _, _, _ => Except.error MalformedInput.malformedInput
  | _ => Except.error MalformedInput.malformedInput

/-- Modelled from the spec: `serialize() -> text`. -/
def FdbInfo.serialize (r : FdbInfo) : String :=
  String.mk (serializeChars r)

/-- Modelled from the spec: `deserialize(text) -> FdbRecord`, failing with
`MalformedInput` on text that does not match the expected encoding. -/
def FdbInfo.deserialize (s : String) : Except MalformedInput FdbInfo :=
  deserializeChars s.data

/-! ### Character-class lemmas -/

theorem charVal_digitChar : ∀ d < 10, charVal (digitChar d) = d := by decide

theorem isDigitC_digitChar : ∀ d < 10, isDigitC (digitChar d) = true := by decide

theorem digitChar_ne_sep : ∀ d < 10, digitChar d ≠ fieldSep ∧ digitChar d ≠ macSep := by decide

theorem digitChar_eq_zero : ∀ d < 10, digitChar d = digitChar 0 → d = 0 := by decide

theorem hexVal_hexChar : ∀ d < 16, hexVal (hexChar d) = d := by decide

theorem isHexC_hexChar : ∀ d < 16, isHexC (hexChar d) = true := by decide

theorem hexChar_ne_sep : ∀ d < 16, hexChar d ≠ fieldSep ∧ hexChar d ≠ macSep := by decide

theorem isDigitC_bounds {c : Char} (h : isDigitC c = true) :
    48 ≤ c.toNat ∧ c.toNat ≤ 57 := by
  simpa [isDigitC, Bool.and_eq_true, decide_eq_true_iff] using h

theorem charVal_lt {c : Char} (h : isDigitC c = true) : charVal c < 10 := by
  obtain ⟨h1, h2⟩ := isDigitC_bounds h
  unfold charVal
  omega

theorem digitChar_charVal {c : Char} (h : isDigitC c = true) : digitChar (charVal c) = c := by
  obtain ⟨h1, h2⟩ := isDigitC_bounds h
  unfold digitChar charVal
  have e : 48 + (c.toNat - 48) = c.toNat := by omega
  rw [e, Char.ofNat_toNat]

theorem charVal_pos {c : Char} (h : isDigitC c = true) (h0 : c ≠ digitChar 0) :
    1 ≤ charVal c := by
  rcases Nat.eq_zero_or_pos (charVal c) with hz | hp
  · exfalso
    apply h0
    rw [← digitChar_charVal h, hz]
  · exact hp

theorem isHexC_spec {c : Char} (h : isHexC c = true) :
    hexVal c < 16 ∧ hexChar (hexVal c) = c := by
  have hox : isDigitC c = true ∨ (97 ≤ c.toNat ∧ c.toNat ≤ 102) := by
    simpa [isHexC, Bool.or_eq_true, Bool.and_eq_true, decide_eq_true_iff] using h
  rcases hox with hd | ⟨h1, h2⟩
  · obtain ⟨h1, h2⟩ := isDigitC_bounds hd
    have hv : hexVal c = c.toNat - 48 := by unfold hexVal; rw [if_pos hd]
    refine ⟨by rw [hv]; omega, ?_⟩
    unfold hexChar
    rw [hv, if_pos (show c.toNat - 48 < 10 by omega)]
    have e : 48 + (c.toNat - 48) = c.toNat := by omega
    rw [e, Char.ofNat_toNat]
  · have hd : isDigitC c = false := by
      cases hb : isDigitC c with
      | false => rfl
      | true => exact absurd (isDigitC_bounds hb).2 (by omega)
    have hv : hexVal c = c.toNat - 87 := by unfold hexVal; rw [if_neg (by simp [hd])]
    refine ⟨by rw [hv]; omega, ?_⟩
    unfold hexChar
    rw [hv, if_neg (show ¬ (c.toNat - 87 < 10) by omega)]
    have e : 87 + (c.toNat - 87) = c.toNat := by omega
    rw [e, Char.ofNat_toNat]

/-! ### Split/join lemmas -/

theorem sepSplit_ne_nil (sep : Char) (cs : List Char) : sepSplit sep cs ≠ [] := by
  induction cs with
  | nil => simp [sepSplit]
  | cons c cs ih =>
    by_cases h : c = sep
    · simp [sepSplit, h]
    · simp only [sepSplit, if_neg h]
      cases hs : sepSplit sep cs with
      | nil => simp
      | cons t ts => simp

theorem sepSplit_no_sep {sep : Char} {xs : List Char} (h : ∀ c ∈ xs, c ≠ sep) :
    sepSplit sep xs = [xs] := by
  induction xs with
  | nil => rfl
  | cons x xs ih =>
    have hx : x ≠ sep := h x (by simp)
    have ih' := ih (fun c hc => h c (by simp [hc]))
    simp only [sepSplit, if_neg hx, ih']

theorem sepSplit_append {sep : Char} {xs : List Char} (h : ∀ c ∈ xs, c ≠ sep)
    (ys : List Char) : sepSplit sep (xs ++ sep :: ys) = xs :: sepSplit sep ys := by
  induction xs with
  | nil => simp [sepSplit]
  | cons x xs ih =>
    have hx : x ≠ sep := h x (by simp)
    have ih' := ih (fun c hc => h c (by simp [hc]))
    simp only [List.cons_append, sepSplit, if_neg hx, List.append_eq, ih']

theorem joinSep_sepSplit (sep : Char) (cs : List Char) :
    joinSep sep (sepSplit sep cs) = cs := by
  induction cs with
  | nil => rfl
  | cons c cs ih =>
    by_cases h : c = sep
    · subst h
      simp only [sepSplit, if_pos rfl]
      cases hs : sepSplit _ cs with
      | nil => exact absurd hs (sepSplit_ne_nil _ cs)
      | cons t ts =>
        rw [hs] at ih
        simp [joinSep, ih]
    · simp only [sepSplit, if_neg h]
      cases hs : sepSplit sep cs with
      | nil => exact absurd hs (sepSplit_ne_nil sep cs)
      | cons t ts =>
        rw [hs] at ih
        cases ts with
        | nil =>
          simp [joinSep] at ih ⊢
          exact ih
        | cons u us =>
          simp [joinSep] at ih ⊢
          exact ih

/-! ### Decimal encoding lemmas -/

theorem decVal_append (xs : List Char) (c : Char) :
    decVal (xs ++ [c]) = decVal xs * 10 + charVal c := by
  simp [decVal, List.foldl_append]

theorem decVal_foldl_acc (cs : List Char) :
    ∀ a : Nat, cs.foldl (fun a c => a * 10 + charVal c) a = a * 10 ^ cs.length + decVal cs := by
  induction cs with
  | nil => intro a; simp [decVal]
  | cons c cs ih =>
    intro a
    have hd : decVal (c :: cs) = charVal c * 10 ^ cs.length + decVal cs := by
      unfold decVal
      rw [List.foldl_cons, ih (0 * 10 + charVal c)]
      ring_nf
      rfl
    rw [List.foldl_cons, ih (a * 10 + charVal c), hd, List.length_cons]
    ring

theorem decVal_cons (c : Char) (cs : List Char) :
    decVal (c :: cs) = charVal c * 10 ^ cs.length + decVal cs := by
  unfold decVal
  rw [List.foldl_cons, decVal_foldl_acc cs (0 * 10 + charVal c)]
  ring_nf
  rfl

theorem decVal_head_pos {c : Char} {cs : List Char} (h : isDigitC c = true)
    (h0 : c ≠ digitChar 0) : 1 ≤ decVal (c :: cs) := by
  rw [decVal_cons]
  have h1 : 1 ≤ charVal c := charVal_pos h h0
  have h2 : 1 ≤ 10 ^ cs.length := Nat.one_le_pow _ _ (by norm_num)
  calc 1 = 1 * 1 := by ring
  _ ≤ charVal c * 10 ^ cs.length := Nat.mul_le_mul h1 h2
  _ ≤ charVal c * 10 ^ cs.length + decVal cs := Nat.le_add_right _ _

theorem encNatAux_zero : ∀ f, encNatAux f 0 = [] := by
  intro f
  cases f <;> simp [encNatAux]

theorem encNatAux_spec : ∀ fuel n, n ≠ 0 → n < 10 ^ fuel →
    decVal (encNatAux fuel n) = n ∧ encNatAux fuel n ≠ [] ∧
    (∀ c ∈ encNatAux fuel n, isDigitC c = true ∧ c ≠ fieldSep ∧ c ≠ macSep) ∧
    (encNatAux fuel n).head? ≠ some (digitChar 0) := by
  intro fuel
  induction fuel with
  | zero => intro n h0 hlt; simp at hlt; omega
  | succ f ih =>
    intro n h0 hlt
    simp only [encNatAux, if_neg h0]
    have hmlt : n % 10 < 10 := Nat.mod_lt n (by norm_num)
    by_cases hsm : n < 10
    · have hq : n / 10 = 0 := Nat.div_eq_of_lt hsm
      have hm : n % 10 = n := Nat.mod_eq_of_lt hsm
      rw [hq, encNatAux_zero, hm, List.nil_append]
      refine ⟨?_, by simp, ?_, ?_⟩
      · simp only [decVal, List.foldl_cons, List.foldl_nil, Nat.zero_mul, Nat.zero_add]
        exact charVal_digitChar n hsm
      · intro c hc
        simp only [List.mem_singleton] at hc
        subst hc
        exact ⟨isDigitC_digitChar n hsm, digitChar_ne_sep n hsm⟩
      · simp only [List.head?_cons, ne_eq, Option.some.injEq]
        intro heq
        exact h0 (digitChar_eq_zero n hsm heq)
    · have hq0 : n / 10 ≠ 0 := by omega
      have hqlt : n / 10 < 10 ^ f := by
        have hlt' : n < 10 ^ f * 10 := by
          rw [← pow_succ]
          exact hlt
        exact (Nat.div_lt_iff_lt_mul (by norm_num)).mpr hlt'
      obtain ⟨ihd, ihne, ihmem, ihh⟩ := ih (n / 10) hq0 hqlt
      refine ⟨?_, by simp [ihne], ?_, ?_⟩
      · rw [decVal_append, ihd, charVal_digitChar _ hmlt]
        omega
      · intro c hc
        rcases List.mem_append.mp hc with h | h
        · exact ihmem c h
        · simp only [List.mem_singleton] at h
          subst h
          exact ⟨isDigitC_digitChar _ hmlt, digitChar_ne_sep _ hmlt⟩
      · obtain ⟨t, ts, he⟩ := List.exists_cons_of_ne_nil ihne
        rw [he]
        rw [he] at ihh
        simpa using ihh

theorem encNatAux_fuel : ∀ f g n, n < 10 ^ f → n < 10 ^ g →
    encNatAux f n = encNatAux g n := by
  intro f
  induction f with
  | zero =>
    intro g n hf _
    have : n = 0 := by simpa using hf
    subst this
    rw [encNatAux_zero, encNatAux_zero]
  | succ f ih =>
    intro g n hf hg
    by_cases h0 : n = 0
    · subst h0
      rw [encNatAux_zero, encNatAux_zero]
    · cases g with
      | zero => simp at hg; omega
      | succ g' =>
        have hqf : n / 10 < 10 ^ f := by
          have : n < 10 ^ f * 10 := by rw [← pow_succ]; exact hf
          exact (Nat.div_lt_iff_lt_mul (by norm_num)).mpr this
        have hqg : n / 10 < 10 ^ g' := by
          have : n < 10 ^ g' * 10 := by rw [← pow_succ]; exact hg
          exact (Nat.div_lt_iff_lt_mul (by norm_num)).mpr this
        simp only [encNatAux, if_neg h0]
        rw [ih g' (n / 10) hqf hqg]

theorem encNat_spec {n : Nat} (h : n < 10 ^ 20) :
    decVal (encNat n) = n ∧ encNat n ≠ [] ∧
    (∀ c ∈ encNat n, isDigitC c = true ∧ c ≠ fieldSep ∧ c ≠ macSep) ∧
    ((encNat n).head? = some (digitChar 0) → encNat n = [digitChar 0]) := by
  by_cases h0 : n = 0
  · subst h0
    refine ⟨by decide, by decide, ?_, fun _ => by decide⟩
    intro c hc
    have : c = digitChar 0 := by simpa [encNat] using hc
    subst this
    decide
  · unfold encNat
    rw [if_neg h0]
    obtain ⟨hd, hne, hmem, hh⟩ := encNatAux_spec 20 n h0 h
    exact ⟨hd, hne, hmem, fun he => absurd he hh⟩

theorem parseNat_encNat {n : Nat} (h : n < 10 ^ 20) : parseNat (encNat n) = some n := by
  obtain ⟨hd, hne, hmem, hh⟩ := encNat_spec h
  unfold parseNat
  rw [if_pos ⟨hne, fun c hc => (hmem c hc).1, hh⟩, hd]

theorem parseNat64_encNat {n : Nat} (h : n < 2 ^ 64) : parseNat64 (encNat n) = some n := by
  have h20 : n < 10 ^ 20 := lt_trans h (by norm_num)
  unfold parseNat64
  rw [parseNat_encNat h20]
  show (if n < 2 ^ 64 then some n else none) = some n
  rw [if_pos h]

theorem parseNat_some {cs : List Char} {v : Nat} (h : parseNat cs = some v) :
    v = decVal cs ∧ cs ≠ [] ∧ (∀ c ∈ cs, isDigitC c = true) ∧
    (cs.head? = some (digitChar 0) → cs = [digitChar 0]) := by
  unfold parseNat at h
  split at h
  next hg => exact ⟨(Option.some.inj h).symm, hg.1, hg.2.1, hg.2.2⟩
  next => exact absurd h (by simp)

theorem parseNat64_some {cs : List Char} {v : Nat} (h : parseNat64 cs = some v) :
    parseNat cs = some v ∧ v < 2 ^ 64 := by
  unfold parseNat64 at h
  split at h
  next n hn =>
    split at h
    next hlt => exact ⟨(Option.some.inj h) ▸ hn, (Option.some.inj h) ▸ hlt⟩
    next => exact absurd h (by simp)
  next => exact absurd h (by simp)

theorem decVal_canon : ∀ cs : List Char, cs ≠ [] → (∀ c ∈ cs, isDigitC c = true) →
    cs.head? ≠ some (digitChar 0) → decVal cs < 10 ^ 20 →
    encNat (decVal cs) = cs ∧ 1 ≤ decVal cs := by
  have e20 : (10 : Nat) ^ 20 = 100000000000000000000 := by norm_num
  have e19 : (10 : Nat) ^ 19 = 10000000000000000000 := by norm_num
  intro cs
  induction cs using List.reverseRecOn with
  | nil => intro h; exact absurd rfl h
  | append_singleton xs x ih =>
    intro _ hdig hh hlt
    have hdx : isDigitC x = true := hdig x (by simp)
    have hxlt : charVal x < 10 := charVal_lt hdx
    rcases eq_or_ne xs [] with he | hne
    · subst he
      simp only [List.nil_append] at hh ⊢
      have hx0 : x ≠ digitChar 0 := by
        intro e
        exact hh (by simp [e])
      have h1 : 1 ≤ charVal x := charVal_pos hdx hx0
      have hv : decVal [x] = charVal x := by simp [decVal]
      rw [hv]
      refine ⟨?_, h1⟩
      unfold encNat
      rw [if_neg (by omega)]
      have hstep : encNatAux 20 (charVal x) =
          encNatAux 19 (charVal x / 10) ++ [digitChar (charVal x % 10)] := by
        show encNatAux (19 + 1) (charVal x) = _
        rw [encNatAux]
        rw [if_neg (by omega)]
      rw [hstep, Nat.div_eq_of_lt hxlt, encNatAux_zero, Nat.mod_eq_of_lt hxlt,
        digitChar_charVal hdx, List.nil_append]
    · have hdigxs : ∀ c ∈ xs, isDigitC c = true :=
        fun c hc => hdig c (List.mem_append.mpr (Or.inl hc))
      obtain ⟨a, as, he⟩ := List.exists_cons_of_ne_nil hne
      have hhxs : xs.head? ≠ some (digitChar 0) := by
        rw [he]
        rw [he] at hh
        simpa using hh
      have hv : decVal (xs ++ [x]) = decVal xs * 10 + charVal x := decVal_append xs x
      rw [hv] at hlt ⊢
      have hltxs : decVal xs < 10 ^ 20 := by rw [e20] at hlt ⊢; omega
      obtain ⟨ihenc, ih1⟩ := ih hne hdigxs hhxs hltxs
      have hne0 : decVal xs * 10 + charVal x ≠ 0 := by omega
      refine ⟨?_, by omega⟩
      unfold encNat
      rw [if_neg hne0]
      have hstep : encNatAux 20 (decVal xs * 10 + charVal x) =
          encNatAux 19 ((decVal xs * 10 + charVal x) / 10) ++
            [digitChar ((decVal xs * 10 + charVal x) % 10)] := by
        show encNatAux (19 + 1) _ = _
        rw [encNatAux]
        rw [if_neg hne0]
      have hdiv : (decVal xs * 10 + charVal x) / 10 = decVal xs := by omega
      have hmod : (decVal xs * 10 + charVal x) % 10 = charVal x := by omega
      rw [hstep, hdiv, hmod, digitChar_charVal hdx]
      have hb19 : decVal xs < 10 ^ 19 := by rw [e19]; rw [e20] at hlt; omega
      have hfuel : encNatAux 19 (decVal xs) = encNatAux 20 (decVal xs) :=
        encNatAux_fuel 19 20 (decVal xs) hb19 hltxs
      have hxs20 : encNatAux 20 (decVal xs) = xs := by
        have := ihenc
        unfold encNat at this
        rwa [if_neg (by omega)] at this
      rw [hfuel, hxs20]

theorem parseNat64_canon {cs : List Char} {v : Nat} (h : parseNat64 cs = some v) :
    encNat v = cs ∧ v < 2 ^ 64 := by
  obtain ⟨hp, hlt⟩ := parseNat64_some h
  obtain ⟨hv, hne, hdig, hzero⟩ := parseNat_some hp
  refine ⟨?_, hlt⟩
  by_cases hz : cs.head? = some (digitChar 0)
  · have hcs : cs = [digitChar 0] := hzero hz
    subst hcs
    have : v = 0 := by rw [hv]; decide
    subst this
    decide
  · have h20 : decVal cs < 10 ^ 20 := by
      rw [← hv]
      exact lt_trans hlt (by norm_num)
    obtain ⟨henc, _⟩ := decVal_canon cs hne hdig hz h20
    rw [hv]
    exact henc

/-! ### Hexadecimal byte and MAC lemmas -/

theorem parseHexByte_hexPair {b : Nat} (h : b < 256) :
    parseHexByte (hexPair b) = some b := by
  have h1 : b / 16 < 16 := by omega
  have h2 : b % 16 < 16 := by omega
  have hred : parseHexByte (hexPair b) =
      if (isHexC (hexChar (b / 16)) && isHexC (hexChar (b % 16))) = true
      then some (hexVal (hexChar (b / 16)) * 16 + hexVal (hexChar (b % 16))) else none := rfl
  rw [hred, if_pos (by simp [isHexC_hexChar _ h1, isHexC_hexChar _ h2])]
  rw [hexVal_hexChar _ h1, hexVal_hexChar _ h2]
  have e : b / 16 * 16 + b % 16 = b := by omega
  rw [e]

theorem hexPair_mem {b : Nat} (h : b < 256) :
    ∀ c ∈ hexPair b, c ≠ fieldSep ∧ c ≠ macSep := by
  intro c hc
  have h1 : b / 16 < 16 := by omega
  have h2 : b % 16 < 16 := by omega
  rcases List.mem_pair.mp hc with e | e <;> subst e
  · exact hexChar_ne_sep _ h1
  · exact hexChar_ne_sep _ h2

theorem parseHexByte_canon {cs : List Char} {b : Nat} (h : parseHexByte cs = some b) :
    hexPair b = cs ∧ b < 256 := by
  match cs, h with
  | [c1, c2], h =>
    simp only [parseHexByte] at h
    split at h
    next hcond =>
      obtain ⟨hc1, hc2⟩ := Bool.and_eq_true_iff.mp hcond
      obtain ⟨hv1, he1⟩ := isHexC_spec hc1
      obtain ⟨hv2, he2⟩ := isHexC_spec hc2
      have hb : b = hexVal c1 * 16 + hexVal c2 := (Option.some.inj h).symm
      subst hb
      have hdiv : (hexVal c1 * 16 + hexVal c2) / 16 = hexVal c1 := by omega
      have hmod : (hexVal c1 * 16 + hexVal c2) % 16 = hexVal c2 := by omega
      refine ⟨?_, by omega⟩
      unfold hexPair
      rw [hdiv, hmod, he1, he2]
    next => exact absurd h (by simp)

theorem hexPair_no_macSep {b : Nat} (h : b < 256) : ∀ c ∈ hexPair b, c ≠ macSep :=
  fun c hc => (hexPair_mem h c hc).2

theorem parseMac_macChars {m : MacAddress} (h : ValidMac m) :
    parseMac (macChars m) = some m := by
  obtain ⟨h0, h1, h2, h3, h4, h5⟩ := h
  have hs : sepSplit macSep (macChars m) =
      [hexPair m.b0, hexPair m.b1, hexPair m.b2, hexPair m.b3, hexPair m.b4, hexPair m.b5] := by
    unfold macChars
    rw [sepSplit_append (hexPair_no_macSep h0), sepSplit_append (hexPair_no_macSep h1),
      sepSplit_append (hexPair_no_macSep h2), sepSplit_append (hexPair_no_macSep h3),
      sepSplit_append (hexPair_no_macSep h4), sepSplit_no_sep (hexPair_no_macSep h5)]
  unfold parseMac
  rw [hs]
  simp only [parseHexByte_hexPair h0, parseHexByte_hexPair h1, parseHexByte_hexPair h2,
    parseHexByte_hexPair h3, parseHexByte_hexPair h4, parseHexByte_hexPair h5]

theorem macChars_no_fieldSep {m : MacAddress} (h : ValidMac m) :
    ∀ c ∈ macChars m, c ≠ fieldSep := by
  obtain ⟨h0, h1, h2, h3, h4, h5⟩ := h
  intro c hc
  simp only [macChars, List.mem_append, List.mem_cons] at hc
  have hsep : macSep ≠ fieldSep := by decide
  rcases hc with h | h
  · exact (hexPair_mem h0 c h).1
  rcases h with h | h
  · exact h ▸ hsep
  rcases h with h | h
  · exact (hexPair_mem h1 c h).1
  rcases h with h | h
  · exact h ▸ hsep
  rcases h with h | h
  · exact (hexPair_mem h2 c h).1
  rcases h with h | h
  · exact h ▸ hsep
  rcases h with h | h
  · exact (hexPair_mem h3 c h).1
  rcases h with h | h
  · exact h ▸ hsep
  rcases h with h | h
  · exact (hexPair_mem h4 c h).1
  rcases h with h | h
  · exact h ▸ hsep
  · exact (hexPair_mem h5 c h).1

theorem parseMac_canon {cs : List Char} {m : MacAddress} (h : parseMac cs = some m) :
    macChars m = cs ∧ ValidMac m := by
  unfold parseMac at h
  split at h
  next p0 p1 p2 p3 p4 p5 hs =>
    cases hp0 : parseHexByte p0 with
    | none => rw [hp0] at h; exact absurd h (by simp)
    | some a0 =>
    cases hp1 : parseHexByte p1 with
    | none => rw [hp0, hp1] at h; exact absurd h (by simp)
    | some a1 =>
    cases hp2 : parseHexByte p2 with
    | none => rw [hp0, hp1, hp2] at h; exact absurd h (by simp)
    | some a2 =>
    cases hp3 : parseHexByte p3 with
    | none => rw [hp0, hp1, hp2, hp3] at h; exact absurd h (by simp)
    | some a3 =>
    cases hp4 : parseHexByte p4 with
    | none => rw [hp0, hp1, hp2, hp3, hp4] at h; exact absurd h (by simp)
    | some a4 =>
    cases hp5 : parseHexByte p5 with
    | none => rw [hp0, hp1, hp2, hp3, hp4, hp5] at h; exact absurd h (by simp)
    | some a5 =>
    rw [hp0, hp1, hp2, hp3, hp4, hp5] at h
    have hm : m = { b0 := a0, b1 := a1, b2 := a2, b3 := a3, b4 := a4, b5 := a5 } :=
      (Option.some.inj h).symm
    obtain ⟨he0, hb0⟩ := parseHexByte_canon hp0
    obtain ⟨he1, hb1⟩ := parseHexByte_canon hp1
    obtain ⟨he2, hb2⟩ := parseHexByte_canon hp2
    obtain ⟨he3, hb3⟩ := parseHexByte_canon hp3
    obtain ⟨he4, hb4⟩ := parseHexByte_canon hp4
    obtain ⟨he5, hb5⟩ := parseHexByte_canon hp5
    subst hm
    constructor
    · have hjoin := joinSep_sepSplit macSep cs
      rw [hs] at hjoin
      simp only [joinSep] at hjoin
      unfold macChars
      simp only
      rw [he0, he1, he2, he3, he4, he5]
      exact hjoin
    · exact ⟨hb0, hb1, hb2, hb3, hb4, hb5⟩
  next => exact absurd h (by simp)

/-! ### Record-level round trip and canonicity -/

theorem encNat_no_fieldSep {n : Nat} (h : n < 2 ^ 64) : ∀ c ∈ encNat n, c ≠ fieldSep := by
  have h20 : n < 10 ^ 20 := lt_trans h (by norm_num)
  exact fun c hc => ((encNat_spec h20).2.2.1 c hc).2.1

theorem sepSplit_serializeChars {r : FdbInfo} (h : ValidFdbInfo r) :
    sepSplit fieldSep (serializeChars r) =
      [encNat r.m_fdbEntry.switch_id, macChars r.m_fdbEntry.mac_address,
        encNat r.m_fdbEntry.bv_id, encNat r.m_bridgePortId, encNat r.m_timestamp] := by
  obtain ⟨⟨hsw, hmac, hbv⟩, hpt, hts⟩ := h
  unfold serializeChars
  rw [sepSplit_append (encNat_no_fieldSep hsw), sepSplit_append (macChars_no_fieldSep hmac),
    sepSplit_append (encNat_no_fieldSep hbv), sepSplit_append (encNat_no_fieldSep hpt),
    sepSplit_no_sep (encNat_no_fieldSep hts)]

theorem deserializeChars_serializeChars {r : FdbInfo} (h : ValidFdbInfo r) :
    deserializeChars (serializeChars r) = Except.ok r := by
  obtain ⟨⟨hsw, hmac, hbv⟩, hpt, hts⟩ := h
  unfold deserializeChars
  rw [sepSplit_serializeChars ⟨⟨hsw, hmac, hbv⟩, hpt, hts⟩]
  simp only [parseNat64_encNat hsw, parseMac_macChars hmac, parseNat64_encNat hbv,
    parseNat64_encNat hpt, parseNat64_encNat hts]

theorem deserializeChars_canon {cs : List Char} {r : FdbInfo}
    (h : deserializeChars cs = Except.ok r) : ValidFdbInfo r ∧ serializeChars r = cs := by
  unfold deserializeChars at h
  split at h
  next f0 f1 f2 f3 f4 hs =>
    cases hp0 : parseNat64 f0 with
    | none => rw [hp0] at h; exact absurd h (by simp)
    | some sw =>
    cases hp1 : parseMac f1 with
    | none => rw [hp0, hp1] at h; exact absurd h (by simp)
    | some mac =>
    cases hp2 : parseNat64 f2 with
    | none => rw [hp0, hp1, hp2] at h; exact absurd h (by simp)
    | some bv =>
    cases hp3 : parseNat64 f3 with
    | none => rw [hp0, hp1, hp2, hp3] at h; exact absurd h (by simp)
    | some pt =>
    cases hp4 : parseNat64 f4 with
    | none => rw [hp0, hp1, hp2, hp3, hp4] at h; exact absurd h (by simp)
    | some ts =>
    rw [hp0, hp1, hp2, hp3, hp4] at h
    have hr : r = { m_fdbEntry := { switch_id := sw, mac_address := mac, bv_id := bv }
                    m_bridgePortId := pt
                    m_timestamp := ts } := (Except.ok.inj h).symm
    obtain ⟨he0, hb0⟩ := parseNat64_canon hp0
    obtain ⟨he1, hb1⟩ := parseMac_canon hp1
    obtain ⟨he2, hb2⟩ := parseNat64_canon hp2
    obtain ⟨he3, hb3⟩ := parseNat64_canon hp3
    obtain ⟨he4, hb4⟩ := parseNat64_canon hp4
    subst hr
    constructor
    · exact ⟨⟨hb0, hb1, hb2⟩, hb3, hb4⟩
    · have hjoin := joinSep_sepSplit fieldSep cs
      rw [hs] at hjoin
      simp only [joinSep] at hjoin
      unfold serializeChars
      simp only
      rw [he0, he1, he2, he3, he4]
      exact hjoin
  next => exact absurd h (by simp)

theorem deserialize_serialize {r : FdbInfo} (h : ValidFdbInfo r) :
    FdbInfo.deserialize (FdbInfo.serialize r) = Except.ok r :=
  deserializeChars_serializeChars h

theorem deserialize_canon {s : String} {r : FdbInfo}
    (h : FdbInfo.deserialize s = Except.ok r) : ValidFdbInfo r ∧ FdbInfo.serialize r = s := by
  obtain ⟨hv, he⟩ := deserializeChars_canon h
  refine ⟨hv, ?_⟩
  unfold FdbInfo.serialize
  rw [he]

/-! ### Concrete sample inputs (the values used by the test suite) -/

/-- The concrete forwarding entry used by the test suite: switch id
0x21000000000000, MAC 00:11:22:33:44:55, bridge/VLAN id 100. -/
def testEntry : FdbEntry :=
  { switch_id := 0x21000000000000
    mac_address := { b0 := 0x00, b1 := 0x11, b2 := 0x22, b3 := 0x33, b4 := 0x44, b5 := 0x55 }
    bv_id := 100 }

/-- The record built by the serialization test: the test entry, bridge port
0x1000000000001, timestamp 2524608000 (2050-01-01). -/
def testRecord : FdbInfo :=
  { m_fdbEntry := testEntry
    m_bridgePortId := 0x1000000000001
    m_timestamp := 2524608000 }

/-! ### Claims -/

/-- C1: for every valid FdbRecord r (any switch identifier, any 6-byte MAC,
any bridge/VLAN identifier, any bridge-port identifier, any uint64 timestamp),
deserialize(serialize(r)) is field-for-field equal to r, so in particular for
the timestamps 0, 2147483647, 2208988800, 2524608000, 4102444800 and 2^64-1. -/
theorem deserialize_serialize_id (r : FdbInfo) (h : ValidFdbInfo r) :
    FdbInfo.deserialize (FdbInfo.serialize r) = Except.ok r :=
  deserialize_serialize h

theorem deserialize_serialize_id_witness :
    ValidFdbInfo (testRecord.setTimestamp (2 ^ 64 - 1)) ∧
    FdbInfo.deserialize (FdbInfo.serialize (testRecord.setTimestamp (2 ^ 64 - 1))) =
      Except.ok (testRecord.setTimestamp (2 ^ 64 - 1)) :=
  ⟨by decide, deserialize_serialize_id _ (by decide)⟩

/-- C2: for every FdbRecord r and every t in the full unsigned 64-bit range
(including 0 and 2^64-1), getTimestamp after setTimestamp(r, t) returns
exactly t — no clamping, truncation or reinterpretation on the get/set
path. -/
theorem getTimestamp_setTimestamp (r : FdbInfo) (t : Nat) (_h : t < 2 ^ 64) :
    (r.setTimestamp t).getTimestamp = t := rfl

theorem getTimestamp_setTimestamp_witness :
    2 ^ 64 - 1 < 2 ^ 64 ∧
    (FdbInfo.mkDefault.setTimestamp (2 ^ 64 - 1)).getTimestamp = 2 ^ 64 - 1 :=
  ⟨by decide, getTimestamp_setTimestamp FdbInfo.mkDefault (2 ^ 64 - 1) (by decide)⟩

/-- C3: on every input text, deserialize either fails with MalformedInput and
returns no record, or returns the unique valid record whose canonical
serialization is exactly that text — it never yields a partially constructed
record, and every text outside the expected encoding fails. -/
theorem deserialize_malformed_or_canonical (s : String) :
    FdbInfo.deserialize s = Except.error MalformedInput.malformedInput ∨
    ∃ r, FdbInfo.deserialize s = Except.ok r ∧ ValidFdbInfo r ∧ FdbInfo.serialize r = s := by
  cases hd : FdbInfo.deserialize s with
  | error e => cases e; exact Or.inl rfl
  | ok r =>
    obtain ⟨hv, he⟩ := deserialize_canon hd
    exact Or.inr ⟨r, rfl, hv, he⟩

/-- C4: for all timestamps t1 < t2 (unsigned 64-bit comparison), a record with
timestamp t1 compares less than a record with timestamp t2, and the ordering
is unchanged by a serialize/deserialize cycle applied to both records. -/
theorem ltByTimestamp_consistent (r1 r2 : FdbInfo) (t1 t2 : Nat)
    (h1 : ValidFdbInfo r1) (h2 : ValidFdbInfo r2)
    (he1 : r1.getTimestamp = t1) (he2 : r2.getTimestamp = t2) (hlt : t1 < t2) :
    FdbInfo.ltByTimestamp r1 r2 ∧
    ∀ r1' r2', FdbInfo.deserialize (FdbInfo.serialize r1) = Except.ok r1' →
      FdbInfo.deserialize (FdbInfo.serialize r2) = Except.ok r2' →
      FdbInfo.ltByTimestamp r1' r2' := by
  have hbase : FdbInfo.ltByTimestamp r1 r2 := by
    unfold FdbInfo.ltByTimestamp
    rw [he1, he2]
    exact hlt
  refine ⟨hbase, ?_⟩
  intro r1' r2' hd1 hd2
  rw [deserialize_serialize h1] at hd1
  rw [deserialize_serialize h2] at hd2
  cases Except.ok.inj hd1
  cases Except.ok.inj hd2
  exact hbase

theorem ltByTimestamp_consistent_witness :
    ValidFdbInfo (testRecord.setTimestamp 2147483647) ∧
    ValidFdbInfo (testRecord.setTimestamp 2208988800) ∧
    (testRecord.setTimestamp 2147483647).getTimestamp = 2147483647 ∧
    (testRecord.setTimestamp 2208988800).getTimestamp = 2208988800 ∧
    2147483647 < 2208988800 ∧
    (FdbInfo.ltByTimestamp (testRecord.setTimestamp 2147483647)
        (testRecord.setTimestamp 2208988800) ∧
      ∀ r1' r2',
        FdbInfo.deserialize (FdbInfo.serialize (testRecord.setTimestamp 2147483647)) =
          Except.ok r1' →
        FdbInfo.deserialize (FdbInfo.serialize (testRecord.setTimestamp 2208988800)) =
          Except.ok r2' →
        FdbInfo.ltByTimestamp r1' r2') :=
  ⟨by decide, by decide, by decide, by decide, by decide,
    ltByTimestamp_consistent (testRecord.setTimestamp 2147483647)
      (testRecord.setTimestamp 2208988800) 2147483647 2208988800
      (by decide) (by decide) (by decide) (by decide) (by decide)⟩

/-- C5: for all uint64 timestamps t1 ≤ t2, subtracting the retrieved
timestamps of two records set to t1 and t2 gives exactly t2 - t1 as unsigned
64-bit arithmetic, including across the 32-bit boundary. -/
theorem timestamp_sub_exact (r1 r2 : FdbInfo) (t1 t2 : Nat)
    (_hle : t1 ≤ t2) (_h2 : t2 < 2 ^ 64) :
    (r2.setTimestamp t2).getTimestamp - (r1.setTimestamp t1).getTimestamp = t2 - t1 := rfl

theorem timestamp_sub_exact_witness :
    2147483647 ≤ 2208988800 ∧ 2208988800 < 2 ^ 64 ∧
    (FdbInfo.mkDefault.setTimestamp 2208988800).getTimestamp -
      (FdbInfo.mkDefault.setTimestamp 2147483647).getTimestamp = 2208988800 - 2147483647 :=
  ⟨by decide, by decide,
    timestamp_sub_exact FdbInfo.mkDefault FdbInfo.mkDefault 2147483647 2208988800
      (by decide) (by decide)⟩

/-- C6: two consecutive setTimestamp calls leave getTimestamp returning
exactly the second value (last-write-wins, no accumulation); in particular
2147483647 then 2208988800 yields 2208988800, not a wrapped value. -/
theorem setTimestamp_last_write_wins (r : FdbInfo) (t1 t2 : Nat)
    (_h1 : t1 < 2 ^ 64) (_h2 : t2 < 2 ^ 64) :
    ((r.setTimestamp t1).setTimestamp t2).getTimestamp = t2 := rfl

theorem setTimestamp_last_write_wins_witness :
    2147483647 < 2 ^ 64 ∧ 2208988800 < 2 ^ 64 ∧
    ((FdbInfo.mkDefault.setTimestamp 2147483647).setTimestamp 2208988800).getTimestamp =
      2208988800 :=
  ⟨by decide, by decide,
    setTimestamp_last_write_wins FdbInfo.mkDefault 2147483647 2208988800
      (by decide) (by decide)⟩

/-- C7: serialize is deterministic (a function of the field values) and the
encoding is stable across repeated encode/decode cycles: any record
deserialize returns for serialize(r) re-serializes to exactly serialize(r);
the timestamp field is encoded as unsigned decimal text covering the full
64-bit range (parsing it back yields the exact value). -/
theorem serialize_stable (r : FdbInfo) (h : ValidFdbInfo r) :
    (∀ r', FdbInfo.deserialize (FdbInfo.serialize r) = Except.ok r' →
      FdbInfo.serialize r' = FdbInfo.serialize r) ∧
    parseNat64 (encNat r.m_timestamp) = some r.m_timestamp := by
  constructor
  · intro r' hd
    rw [deserialize_serialize h] at hd
    cases Except.ok.inj hd
    rfl
  · exact parseNat64_encNat h.2.2

theorem serialize_stable_witness :
    ValidFdbInfo testRecord ∧
    ((∀ r', FdbInfo.deserialize (FdbInfo.serialize testRecord) = Except.ok r' →
      FdbInfo.serialize r' = FdbInfo.serialize testRecord) ∧
    parseNat64 (encNat testRecord.m_timestamp) = some testRecord.m_timestamp) :=
  ⟨by decide, serialize_stable testRecord (by decide)⟩

/-- C8: setFdbEntry modifies only the composite key and switch identifier,
setBridgePortId modifies only the bridge-port identifier; neither changes the
stored timestamp, and a timestamp set before both calls is still returned
unchanged afterwards — also after a serialize/deserialize cycle. -/
theorem setters_preserve_timestamp (r : FdbInfo) (e : FdbEntry) (p t : Nat)
    (hE : ValidEntry e) (hp : p < 2 ^ 64) (ht : t < 2 ^ 64) :
    (r.setFdbEntry e).getTimestamp = r.getTimestamp ∧
    (r.setFdbEntry e).m_bridgePortId = r.m_bridgePortId ∧
    (r.setBridgePortId p).getTimestamp = r.getTimestamp ∧
    (r.setBridgePortId p).m_fdbEntry = r.m_fdbEntry ∧
    (((r.setTimestamp t).setFdbEntry e).setBridgePortId p).getTimestamp = t ∧
    ∀ r', FdbInfo.deserialize
        (FdbInfo.serialize (((r.setTimestamp t).setFdbEntry e).setBridgePortId p)) =
        Except.ok r' → r'.getTimestamp = t := by
  refine ⟨rfl, rfl, rfl, rfl, rfl, ?_⟩
  intro r' hd
  have hv : ValidFdbInfo (((r.setTimestamp t).setFdbEntry e).setBridgePortId p) :=
    ⟨hE, hp, ht⟩
  rw [deserialize_serialize hv] at hd
  cases Except.ok.inj hd
  rfl

theorem setters_preserve_timestamp_witness :
    ValidEntry testEntry ∧ 0x1000000000001 < 2 ^ 64 ∧ 2524608000 < 2 ^ 64 ∧
    ((FdbInfo.mkDefault.setFdbEntry testEntry).getTimestamp = FdbInfo.mkDefault.getTimestamp ∧
    (FdbInfo.mkDefault.setFdbEntry testEntry).m_bridgePortId = FdbInfo.mkDefault.m_bridgePortId ∧
    (FdbInfo.mkDefault.setBridgePortId 0x1000000000001).getTimestamp =
      FdbInfo.mkDefault.getTimestamp ∧
    (FdbInfo.mkDefault.setBridgePortId 0x1000000000001).m_fdbEntry =
      FdbInfo.mkDefault.m_fdbEntry ∧
    (((FdbInfo.mkDefault.setTimestamp 2524608000).setFdbEntry testEntry).setBridgePortId
      0x1000000000001).getTimestamp = 2524608000 ∧
    ∀ r', FdbInfo.deserialize
        (FdbInfo.serialize (((FdbInfo.mkDefault.setTimestamp 2524608000).setFdbEntry
          testEntry).setBridgePortId 0x1000000000001)) =
        Except.ok r' → r'.getTimestamp = 2524608000) :=
  ⟨by decide, by decide, by decide,
    setters_preserve_timestamp FdbInfo.mkDefault testEntry 0x1000000000001 2524608000
      (by decide) (by decide) (by decide)⟩

/-- C9: setTimestamp, setFdbEntry, setBridgePortId and getTimestamp are total
over the full domains of their declared types and never fail: every value is
accepted and stored exactly (deserialize is the only operation returning an
error type). -/
theorem setters_total_exact (r : FdbInfo) (e : FdbEntry) (p t : Nat) :
    (r.setTimestamp t).m_timestamp = t ∧
    (r.setFdbEntry e).m_fdbEntry = e ∧
    (r.setBridgePortId p).m_bridgePortId = p ∧
    r.getTimestamp = r.m_timestamp :=
  ⟨rfl, rfl, rfl, rfl⟩

/-- C10: getTimestamp on a freshly default-constructed FdbRecord is
well-defined and returns the fixed deterministic initial value 0, the same
for every fresh record. -/
theorem default_timestamp_zero : FdbInfo.mkDefault.getTimestamp = 0 := rfl

end saivs
